import Mathlib

/-!
Formal model of the `realtime-analytics` service (Go), shallowly embedded in
Lean 4: the summary-store upsert contract, the read-side regrouping of
summaries, the event ingestion service and its RPC handler, and the streaming
aggregation consumer's in-memory working set with its eviction sweep.

Machine integers (`int64`) are modelled as `Int`: the summary counters live in
PostgreSQL `bigint` columns, which raise an error on overflow rather than
wrapping, so the unwrapped integer is the faithful value model for attainable
counts. Go strings are modelled as `String`; Go's byte-wise string comparison
coincides with code-point comparison on the ASCII strings this code compares.
UUIDs (`github.com/google/uuid`) are opaque 128-bit identifiers: modelled as an
abstract `Nat` where `0` stands for `uuid.Nil`.
-/

namespace RealtimeAnalytics

/-- Decimal digit character, used to model the fixed-width numeric fields of
Go's `time.Format` reference layout (only arguments below 10 arise). -/
def digitChar (n : Nat) : Char :=
  match n with
  | 0 => '0' | 1 => '1' | 2 => '2' | 3 => '3' | 4 => '4'
  | 5 => '5' | 6 => '6' | 7 => '7' | 8 => '8' | _ => '9'

/-- Two-digit zero-padded decimal rendering (the `01`, `02` and `15` fields of
a Go time layout). -/
def pad2 (n : Nat) : List Char := [digitChar (n / 10), digitChar (n % 10)]

/-- Four-digit zero-padded decimal rendering (the `2006` year field of a Go
time layout). -/
def pad4 (n : Nat) : List Char := pad2 (n / 100) ++ pad2 (n % 100)

/-- A civil (calendar) date in UTC, the value `time.Time.Truncate(24h)`
denotes. -/
structure Date where
  year : Nat
  month : Nat
  day : Nat
deriving DecidableEq

/-- Character list underlying Go's `t.Format("2006-01-02")`. -/
def fmtList (d : Date) : List Char :=
  pad4 d.year ++ '-' :: (pad2 d.month ++ '-' :: pad2 d.day)

/-- Go's `t.Format("2006-01-02")`: the ISO date string `YYYY-MM-DD`. -/
def formatDate (d : Date) : String := String.mk (fmtList d)

/-- Chronological order on civil dates (lexicographic on year, month, day). -/
def dateLt (a b : Date) : Prop :=
  a.year < b.year ∨
    (a.year = b.year ∧ (a.month < b.month ∨ (a.month = b.month ∧ a.day < b.day)))

instance (a b : Date) : Decidable (dateLt a b) := by
  unfold dateLt; infer_instance

/-- Bounds under which the fixed-width decimal date rendering is
order-faithful; every real calendar date satisfies them. -/
def WFDate (d : Date) : Prop := d.year < 10000 ∧ d.month < 100 ∧ d.day < 100

instance (d : Date) : Decidable (WFDate d) := by
  unfold WFDate; infer_instance

/-- Byte-wise lexicographic comparison of character lists, the order Go's
`<` on strings implements (on ASCII data, bytes and code points agree). -/
def listLtb : List Char → List Char → Bool
  | [], [] => false
  | [], _ :: _ => true
  | _ :: _, [] => false
  | a :: as, b :: bs => if a < b then true else if b < a then false else listLtb as bs

/-- Go's string comparison `s < t`. -/
def strLt (s t : String) : Bool := listLtb s.data t.data

theorem listLtb_nil_right (zs : List Char) : listLtb zs [] = false := by
  cases zs <;> rfl

theorem char_eq_of_not_lt {a b : Char} (h1 : ¬a < b) (h2 : ¬b < a) : a = b :=
  le_antisymm (le_of_not_lt h2) (le_of_not_lt h1)

/-- Lexicographic comparison splits along a length-aligned decomposition. -/
theorem listLtb_append_append (xs : List Char) :
    ∀ ys zs ws : List Char, xs.length = ys.length →
      (listLtb (xs ++ zs) (ys ++ ws) = true ↔
        (listLtb xs ys = true ∨ (xs = ys ∧ listLtb zs ws = true))) := by
  induction xs with
  | nil =>
    intro ys zs ws h
    cases ys with
    | nil => simp [listLtb]
    | cons b bs => simp at h
  | cons a as ih =>
    intro ys zs ws h
    cases ys with
    | nil => simp at h
    | cons b bs =>
      simp only [List.cons_append, listLtb]
      by_cases hab : a < b
      · simp [hab]
      · by_cases hba : b < a
        · have hne : a ≠ b := fun hh => lt_irrefl a (hh ▸ hba)
          simp [hab, hba, hne]
        · have heq : a = b := char_eq_of_not_lt hab hba
          subst heq
          have hlen : as.length = bs.length := Nat.succ.inj h
          simp [hab, hba, ih bs zs ws hlen]

/-- Appending a suffix to the shorter side of a length-aligned comparison
does not change the verdict against a bare right-hand side. -/
theorem listLtb_append_left (xs ys zs : List Char) (h : xs.length = ys.length) :
    listLtb (xs ++ zs) ys = listLtb xs ys := by
  have h2 := listLtb_append_append xs ys zs [] h
  rw [List.append_nil] at h2
  rw [Bool.eq_iff_iff, h2, listLtb_nil_right]
  simp

set_option maxRecDepth 4000 in
theorem digitChar_lt_iff : ∀ a < 10, ∀ b < 10, (digitChar a < digitChar b ↔ a < b) := by
  decide

set_option maxRecDepth 4000 in
theorem digitChar_inj : ∀ a < 10, ∀ b < 10, (digitChar a = digitChar b ↔ a = b) := by
  decide

theorem pad2_lt_iff (m n : Nat) (hm : m < 100) (hn : n < 100) :
    (listLtb (pad2 m) (pad2 n) = true ↔ m < n) := by
  have h1 : m / 10 < 10 := by omega
  have h2 : n / 10 < 10 := by omega
  have h3 : m % 10 < 10 := by omega
  have h4 : n % 10 < 10 := by omega
  simp only [pad2, listLtb]
  by_cases hA : digitChar (m / 10) < digitChar (n / 10)
  · have := (digitChar_lt_iff _ h1 _ h2).mp hA
    simp only [hA, if_true]
    constructor
    · intro _; omega
    · intro _; trivial
  · by_cases hB : digitChar (n / 10) < digitChar (m / 10)
    · have := (digitChar_lt_iff _ h2 _ h1).mp hB
      simp only [hA, hB, if_false, if_true]
      constructor
      · intro hcon; cases hcon
      · intro _; omega
    · have hEq : m / 10 = n / 10 :=
        (digitChar_inj _ h1 _ h2).mp (char_eq_of_not_lt hA hB)
      by_cases hC : digitChar (m % 10) < digitChar (n % 10)
      · have := (digitChar_lt_iff _ h3 _ h4).mp hC
        simp only [hA, hB, hC, if_false, if_true]
        constructor
        · intro _; omega
        · intro _; trivial
      · by_cases hD : digitChar (n % 10) < digitChar (m % 10)
        · have := (digitChar_lt_iff _ h4 _ h3).mp hD
          simp only [hA, hB, hC, hD, if_false, if_true]
          constructor
          · intro hcon; cases hcon
          · intro _; omega
        · have hEq2 : m % 10 = n % 10 :=
            (digitChar_inj _ h3 _ h4).mp (char_eq_of_not_lt hC hD)
          simp only [hA, hB, hC, hD, if_false, listLtb]
          constructor
          · intro hcon; cases hcon
          · intro _; omega

theorem pad2_eq_iff (m n : Nat) (hm : m < 100) (hn : n < 100) :
    (pad2 m = pad2 n ↔ m = n) := by
  have h1 : m / 10 < 10 := by omega
  have h2 : n / 10 < 10 := by omega
  have h3 : m % 10 < 10 := by omega
  have h4 : n % 10 < 10 := by omega
  constructor
  · intro h
    have e1 : digitChar (m / 10) = digitChar (n / 10) := (List.cons.inj h).1
    have e2 : digitChar (m % 10) = digitChar (n % 10) :=
      (List.cons.inj (List.cons.inj h).2).1
    have := (digitChar_inj _ h1 _ h2).mp e1
    have := (digitChar_inj _ h3 _ h4).mp e2
    omega
  · rintro rfl; rfl

theorem pad4_lt_iff (m n : Nat) (hm : m < 10000) (hn : n < 10000) :
    (listLtb (pad4 m) (pad4 n) = true ↔ m < n) := by
  unfold pad4
  rw [listLtb_append_append (pad2 (m / 100)) (pad2 (n / 100)) (pad2 (m % 100))
    (pad2 (n % 100)) rfl]
  rw [pad2_lt_iff _ _ (by omega) (by omega), pad2_lt_iff _ _ (by omega) (by omega),
    pad2_eq_iff _ _ (by omega) (by omega)]
  omega

theorem pad4_eq_iff (m n : Nat) (hm : m < 10000) (hn : n < 10000) :
    (pad4 m = pad4 n ↔ m = n) := by
  unfold pad4
  constructor
  · intro h
    have := List.append_inj h rfl
    have e1 := (pad2_eq_iff _ _ (by omega : m / 100 < 100) (by omega)).mp this.1
    have e2 := (pad2_eq_iff _ _ (by omega : m % 100 < 100) (by omega)).mp this.2
    omega
  · rintro rfl; rfl

theorem listLtb_cons_same (c : Char) (u v : List Char) :
    listLtb (c :: u) (c :: v) = listLtb u v := by
  simp [listLtb]

theorem pad4_length (n : Nat) : (pad4 n).length = 4 := rfl

theorem fmtList_length (d : Date) : (fmtList d).length = 10 := rfl

theorem fmtList_lt_iff (a b : Date) (ha : WFDate a) (hb : WFDate b) :
    (listLtb (fmtList a) (fmtList b) = true ↔ dateLt a b) := by
  obtain ⟨ha1, ha2, ha3⟩ := ha
  obtain ⟨hb1, hb2, hb3⟩ := hb
  unfold fmtList
  rw [listLtb_append_append (pad4 a.year) (pad4 b.year)
      ('-' :: (pad2 a.month ++ '-' :: pad2 a.day))
      ('-' :: (pad2 b.month ++ '-' :: pad2 b.day)) rfl,
    listLtb_cons_same,
    listLtb_append_append (pad2 a.month) (pad2 b.month)
      ('-' :: pad2 a.day) ('-' :: pad2 b.day) rfl,
    listLtb_cons_same,
    pad4_lt_iff _ _ ha1 hb1, pad4_eq_iff _ _ ha1 hb1,
    pad2_lt_iff _ _ ha2 hb2, pad2_eq_iff _ _ ha2 hb2,
    pad2_lt_iff _ _ ha3 hb3]
  unfold dateLt
  tauto

theorem fmtList_inj (a b : Date) (ha : WFDate a) (hb : WFDate b) :
    (fmtList a = fmtList b ↔ a = b) := by
  obtain ⟨ha1, ha2, ha3⟩ := ha
  obtain ⟨hb1, hb2, hb3⟩ := hb
  unfold fmtList
  constructor
  · intro h
    obtain ⟨e4, etail⟩ := List.append_inj h rfl
    have eyear := (pad4_eq_iff _ _ ha1 hb1).mp e4
    obtain ⟨e2, etail3⟩ := List.append_inj (List.cons.inj etail).2 rfl
    have emonth := (pad2_eq_iff _ _ ha2 hb2).mp e2
    have eday := (pad2_eq_iff _ _ ha3 hb3).mp (List.cons.inj etail3).2
    cases a; cases b
    simp_all
  · rintro rfl; rfl

/-!
Summary Store (`internal/analytics/model.go`, `internal/analytics/repository.go`).
The surrogate `id` column filled in by `RETURNING id` carries no semantics and
is omitted from the row model.
-/

/-- A row of the `analytics_summary` table / the `analytics.Summary` Go
struct, keyed by `(date, hour, event_type)`. `metadata` is the opaque
`json.RawMessage` blob; `updatedAt` an abstract timestamp. -/
structure Summary where
  date : Date
  hour : Nat
  eventType : String
  totalEvents : Int
  uniqueUsers : Int
  metadata : String
  updatedAt : Nat
deriving DecidableEq

/-- `repository.UpsertSummary`: the `INSERT ... ON CONFLICT (date, hour,
event_type) DO UPDATE` statement. On conflict `total_events` accumulates by
addition while `unique_users`, `metadata` and `updated_at` are replaced by the
incoming (`EXCLUDED`) values; otherwise the incoming row is inserted. The
table is modelled as a list of rows with at most one row per key. -/
def upsertSummary : List Summary → Summary → List Summary
  | [], s => [s]
  | r :: rest, s =>
    if r.date = s.date ∧ r.hour = s.hour ∧ r.eventType = s.eventType then
      { r with totalEvents := r.totalEvents + s.totalEvents,
               uniqueUsers := s.uniqueUsers,
               metadata := s.metadata,
               updatedAt := s.updatedAt } :: rest
    else r :: upsertSummary rest s

/-- `repository.GetSummary`: the row stored under `(date, hour, event_type)`,
if any. -/
def findRow (store : List Summary) (d : Date) (h : Nat) (et : String) : Option Summary :=
  store.find? (fun r => decide (r.date = d ∧ r.hour = h ∧ r.eventType = et))

/-!
Read Aggregator (`internal/query`, `Service.groupByGranularity`).
-/

/-- The `query.EventStat` Go struct. The `Timestamp` field (a `time.Time`
built by `time.Date(y, m, d, hour, 0, 0, 0, UTC)`) is modelled as its date and
hour-of-day components; the optional `Metadata` map is never populated by
`groupByGranularity` and is omitted. -/
structure EventStat where
  tsDate : Date
  tsHour : Nat
  eventType : String
  totalEvents : Int
  uniqueUsers : Int
deriving DecidableEq

/-- Merging one more summary row into an existing group: `TotalEvents`
accumulates, `UniqueUsers` is replaced only when the incoming value is
strictly larger (`if summary.UniqueUsers > stat.UniqueUsers`). -/
def mergeStat (stat : EventStat) (s : Summary) : EventStat :=
  { stat with
    totalEvents := stat.totalEvents + s.totalEvents,
    uniqueUsers := if stat.uniqueUsers < s.uniqueUsers then s.uniqueUsers else stat.uniqueUsers }

/-- One iteration of the `groupByGranularity` loop body on the `grouped` map
(modelled as an association list in insertion order): merge into the existing
entry for `key`, or create a fresh entry holding the row's own values. -/
def addToGroup : List (String × EventStat) → String → Date → Nat → Summary →
    List (String × EventStat)
  | [], key, tsD, tsH, s =>
    [(key, ⟨tsD, tsH, s.eventType, s.totalEvents, s.uniqueUsers⟩)]
  | (k, stat) :: rest, key, tsD, tsH, s =>
    if k = key then (k, mergeStat stat s) :: rest
    else (k, stat) :: addToGroup rest key tsD tsH s

/-- The `case "hour"` (and `default`) map key:
`fmt.Sprintf("%s-%s", timestamp.Format("2006-01-02-15"), summary.EventType)`. -/
def hourKeyOf (s : Summary) : String :=
  String.mk (fmtList s.date ++ '-' :: (pad2 s.hour ++ '-' :: s.eventType.data))

/-- The `case "day"` map key:
`fmt.Sprintf("%s-%s", timestamp.Format("2006-01-02"), summary.EventType)`. -/
def dayKeyOf (s : Summary) : String :=
  String.mk (fmtList s.date ++ '-' :: s.eventType.data)

/-- `query.Service.groupByGranularity`: fold the summaries into the `grouped`
map, switching on the granularity string per row exactly as the Go `switch`
does (`"hour"`, `"day"`, and a `default` identical to `"hour"`). In the
`"day"` branch the group timestamp is the summary's date at midnight. -/
def groupByGranularity (summaries : List Summary) (granularity : String) :
    List (String × EventStat) :=
  summaries.foldl
    (fun grouped s =>
      if granularity = "hour" then addToGroup grouped (hourKeyOf s) s.date s.hour s
      else if granularity = "day" then addToGroup grouped (dayKeyOf s) s.date 0 s
      else addToGroup grouped (hourKeyOf s) s.date s.hour s)
    []

/-- Lookup in the `grouped` association list (Go map indexing). -/
def lookupGroup : List (String × EventStat) → String → Option EventStat
  | [], _ => none
  | (k', stat) :: rest, k => if k' = k then some stat else lookupGroup rest k

/-- The body of `groupByGranularity`'s loop for a fixed key/timestamp
selection. -/
def groupStep (keyOf : Summary → String) (tsD : Summary → Date) (tsH : Summary → Nat) :
    List (String × EventStat) → Summary → List (String × EventStat) :=
  fun g s => addToGroup g (keyOf s) (tsD s) (tsH s) s

/-- The binary maximum the merge step implements on `unique_users`. -/
def maxI (a b : Int) : Int := if a < b then b else a

/-- Running maximum of a nonempty collection, seeded by its first element. -/
def intMaxList (x : Int) (xs : List Int) : Int := xs.foldl maxI x

theorem intMaxList_mem (x : Int) (xs : List Int) : intMaxList x xs ∈ x :: xs := by
  induction xs generalizing x with
  | nil => simp [intMaxList]
  | cons b bs ih =>
    have h := ih (maxI x b)
    rw [List.mem_cons] at h
    have step : intMaxList x (b :: bs) = intMaxList (maxI x b) bs := rfl
    rw [step]
    rcases h with h | h
    · rw [h]
      unfold maxI
      split
      · exact List.mem_cons_of_mem _ (List.mem_cons_self _ _)
      · exact List.mem_cons_self _ _
    · exact List.mem_cons_of_mem _ (List.mem_cons_of_mem _ h)

theorem le_intMaxList (x : Int) (xs : List Int) : ∀ y ∈ x :: xs, y ≤ intMaxList x xs := by
  induction xs generalizing x with
  | nil =>
    intro y hy
    rw [List.mem_cons] at hy
    rcases hy with rfl | h
    · simp [intMaxList]
    · simp at h
  | cons b bs ih =>
    intro y hy
    have hx : x ≤ maxI x b := by unfold maxI; split <;> omega
    have hb : b ≤ maxI x b := by unfold maxI; split <;> omega
    have step : intMaxList x (b :: bs) = intMaxList (maxI x b) bs := rfl
    rw [step]
    rw [List.mem_cons, List.mem_cons] at hy
    rcases hy with h | h | h
    · rw [h]
      exact le_trans hx (ih (maxI x b) (maxI x b) (List.mem_cons_self _ _))
    · rw [h]
      exact le_trans hb (ih (maxI x b) (maxI x b) (List.mem_cons_self _ _))
    · exact ih (maxI x b) y (List.mem_cons_of_mem _ h)

theorem foldl_ext {α β : Type} (f g : β → α → β) (hfg : ∀ b a, f b a = g b a)
    (b : β) (l : List α) : l.foldl f b = l.foldl g b := by
  induction l generalizing b with
  | nil => rfl
  | cons a as ih => simp only [List.foldl_cons, hfg, ih]

theorem lookup_addToGroup (g : List (String × EventStat)) (key : String) (tsD : Date)
    (tsH : Nat) (s : Summary) (k : String) :
    lookupGroup (addToGroup g key tsD tsH s) k =
      if k = key then
        (match lookupGroup g key with
         | none => some ⟨tsD, tsH, s.eventType, s.totalEvents, s.uniqueUsers⟩
         | some stat => some (mergeStat stat s))
      else lookupGroup g k := by
  induction g with
  | nil =>
    by_cases hk : k = key
    · subst hk
      simp [addToGroup, lookupGroup]
    · have h2 : ¬key = k := fun h => hk h.symm
      simp [addToGroup, lookupGroup, hk, h2]
  | cons p rest ih =>
    obtain ⟨k', stat⟩ := p
    by_cases hk' : k' = key
    · by_cases hk : k = key
      · simp [addToGroup, lookupGroup, hk', hk]
      · have h2 : ¬key = k := fun h => hk h.symm
        simp [addToGroup, lookupGroup, hk', hk, h2]
    · by_cases hk : k = k'
      · have h2 : ¬k = key := fun h => hk' (hk.symm.trans h)
        simp [addToGroup, lookupGroup, hk', hk, h2]
      · have h2 : ¬k' = k := fun h => hk h.symm
        simp [addToGroup, lookupGroup, hk', hk, h2, ih]

/-- Full characterisation of the grouping fold: the entry stored under a key
is built from the rows whose key matches it, with the timestamp and event
type of the first such row, the sum of their `total_events`, and the running
maximum of their `unique_users`. -/
theorem lookup_groupFold (keyOf : Summary → String) (tsD : Summary → Date)
    (tsH : Summary → Nat) (l : List Summary) (k : String) :
    lookupGroup (l.foldl (groupStep keyOf tsD tsH) []) k =
      (match l.filter (fun s => decide (keyOf s = k)) with
       | [] => none
       | s₀ :: rest =>
          some ⟨tsD s₀, tsH s₀, s₀.eventType,
                s₀.totalEvents + (rest.map Summary.totalEvents).sum,
                intMaxList s₀.uniqueUsers (rest.map Summary.uniqueUsers)⟩) := by
  induction l using List.reverseRecOn with
  | nil => simp [lookupGroup]
  | append_singleton l s ih =>
    rw [List.foldl_append]
    simp only [List.foldl_cons, List.foldl_nil]
    rw [show groupStep keyOf tsD tsH (l.foldl (groupStep keyOf tsD tsH) []) s =
      addToGroup (l.foldl (groupStep keyOf tsD tsH) []) (keyOf s) (tsD s) (tsH s) s from rfl]
    rw [lookup_addToGroup]
    rw [List.filter_append]
    by_cases hk : k = keyOf s
    · subst hk
      rw [if_pos rfl, ih]
      have hsingle : List.filter (fun s' => decide (keyOf s' = keyOf s)) [s] = [s] := by
        simp
      rw [hsingle]
      cases hfl : l.filter (fun s' => decide (keyOf s' = keyOf s)) with
      | nil => simp [mergeStat, intMaxList]
      | cons s₀ rest =>
        simp only [mergeStat, intMaxList, List.map_append, List.foldl_append,
          List.map_cons, List.map_nil, List.sum_append, List.foldl_cons,
          List.foldl_nil, List.sum_cons, List.sum_nil, List.cons_append,
          Option.some.injEq, EventStat.mk.injEq]
        refine ⟨trivial, trivial, trivial, by omega, rfl⟩
    · rw [if_neg hk, ih]
      have hempty : List.filter (fun s' => decide (keyOf s' = k)) [s] = [] := by
        have hns : ¬keyOf s = k := fun h => hk h.symm
        simp [hns]
      rw [hempty, List.append_nil]

theorem string_data_inj {s t : String} (h : s.data = t.data) : s = t := by
  cases s; cases t; exact congrArg String.mk h

/-- Two summaries produce the same day-granularity key exactly when they fall
on the same date with the same event type. -/
theorem dayKeyOf_eq_iff (a b : Summary) (ha : WFDate a.date) (hb : WFDate b.date) :
    (dayKeyOf a = dayKeyOf b ↔ (a.date = b.date ∧ a.eventType = b.eventType)) := by
  unfold dayKeyOf
  constructor
  · intro h
    have hl : fmtList a.date ++ '-' :: a.eventType.data =
        fmtList b.date ++ '-' :: b.eventType.data := by
      have h2 := congrArg String.data h
      simpa using h2
    obtain ⟨e1, e2⟩ := List.append_inj hl (by rw [fmtList_length, fmtList_length])
    exact ⟨(fmtList_inj _ _ ha hb).mp e1, string_data_inj (List.cons.inj e2).2⟩
  · rintro ⟨h1, h2⟩
    rw [h1, h2]

theorem groupByGranularity_day_eq (summaries : List Summary) :
    groupByGranularity summaries "day" =
      summaries.foldl (groupStep dayKeyOf Summary.date (fun _ => 0)) [] := by
  unfold groupByGranularity
  apply foldl_ext
  intro g s
  simp [groupStep]

theorem findRow_upsert_self (store : List Summary) (s : Summary) :
    findRow (upsertSummary store s) s.date s.hour s.eventType =
      some (match findRow store s.date s.hour s.eventType with
            | none => s
            | some r => { r with totalEvents := r.totalEvents + s.totalEvents,
                                 uniqueUsers := s.uniqueUsers,
                                 metadata := s.metadata, updatedAt := s.updatedAt }) := by
  induction store with
  | nil => simp [upsertSummary, findRow, List.find?]
  | cons r rest ih =>
    by_cases hkr : r.date = s.date ∧ r.hour = s.hour ∧ r.eventType = s.eventType
    · obtain ⟨h1, h2, h3⟩ := hkr
      simp [upsertSummary, findRow, List.find?, h1, h2, h3]
    · have hdec : ¬(r.date = s.date ∧ r.hour = s.hour ∧ r.eventType = s.eventType) := hkr
      unfold findRow at ih ⊢
      simp only [upsertSummary, if_neg hkr]
      rw [List.find?_cons_of_neg _ (by simpa using hdec),
        List.find?_cons_of_neg _ (by simpa using hdec)]
      exact ih

theorem findRow_upsert_other (store : List Summary) (s : Summary) (d : Date) (h : Nat)
    (et : String) (hne : ¬(s.date = d ∧ s.hour = h ∧ s.eventType = et)) :
    findRow (upsertSummary store s) d h et = findRow store d h et := by
  induction store with
  | nil =>
    simp [upsertSummary, findRow, List.find?, hne]
  | cons r rest ih =>
    by_cases hkr : r.date = s.date ∧ r.hour = s.hour ∧ r.eventType = s.eventType
    · obtain ⟨h1, h2, h3⟩ := hkr
      have hpredr : ¬(r.date = d ∧ r.hour = h ∧ r.eventType = et) := by
        rw [h1, h2, h3]; exact hne
      unfold findRow
      simp only [upsertSummary, if_pos (⟨h1, h2, h3⟩ :
        r.date = s.date ∧ r.hour = s.hour ∧ r.eventType = s.eventType)]
      rw [List.find?_cons_of_neg _ (by simpa using hpredr),
        List.find?_cons_of_neg _ (by simpa using hpredr)]
    · unfold findRow at ih ⊢
      simp only [upsertSummary, if_neg hkr]
      by_cases hpr : r.date = d ∧ r.hour = h ∧ r.eventType = et
      · rw [List.find?_cons_of_pos _ (by simpa using hpr),
          List.find?_cons_of_pos _ (by simpa using hpr)]
      · rw [List.find?_cons_of_neg _ (by simpa using hpr),
          List.find?_cons_of_neg _ (by simpa using hpr)]
        exact ih

/-- Folding further upserts for one key over a store that already holds a row
for that key: the row's `total_events` grows by the number of calls and its
other mutable fields end up equal to those of the last call. -/
theorem upsert_fold_hit (d : Date) (hr : Nat) (et : String) (calls : List Summary) :
    ∀ (store : List Summary) (r : Summary),
      (∀ c ∈ calls, c.date = d ∧ c.hour = hr ∧ c.eventType = et ∧ c.totalEvents = 1) →
      findRow store d hr et = some r →
      ∃ r', findRow (calls.foldl upsertSummary store) d hr et = some r' ∧
        r'.totalEvents = r.totalEvents + calls.length ∧
        (calls = [] → r' = r) ∧
        (∀ hne : calls ≠ [],
          r'.uniqueUsers = (calls.getLast hne).uniqueUsers ∧
          r'.metadata = (calls.getLast hne).metadata ∧
          r'.updatedAt = (calls.getLast hne).updatedAt) := by
  induction calls with
  | nil =>
    intro store r _ hfind
    refine ⟨r, by simpa using hfind, by simp, fun _ => rfl, ?_⟩
    intro hne; exact absurd rfl hne
  | cons c rest ih =>
    intro store r hkeys hfind
    obtain ⟨hc1, hc2, hc3, hc4⟩ := hkeys c (List.mem_cons_self _ _)
    have hself := findRow_upsert_self store c
    rw [hc1, hc2, hc3, hfind] at hself
    obtain ⟨r', hfind', htot, hnil, hlast⟩ :=
      ih (upsertSummary store c)
        { r with
          totalEvents := r.totalEvents + c.totalEvents,
          uniqueUsers := c.uniqueUsers, metadata := c.metadata, updatedAt := c.updatedAt }
        (fun x hx => hkeys x (List.mem_cons_of_mem _ hx)) hself
    have htot2 : r'.totalEvents = r.totalEvents + c.totalEvents + rest.length := by
      simpa using htot
    refine ⟨r', by simpa using hfind', ?_, ?_, ?_⟩
    · rw [hc4] at htot2
      simp only [List.length_cons]
      push_cast at htot2 ⊢
      omega
    · intro hcon; cases hcon
    · intro hne2
      cases rest with
      | nil =>
        have hr' : r' = { r with
            totalEvents := r.totalEvents + c.totalEvents,
            uniqueUsers := c.uniqueUsers, metadata := c.metadata,
            updatedAt := c.updatedAt } :=
          hnil rfl
        rw [List.getLast_singleton, hr']
        exact ⟨rfl, rfl, rfl⟩
      | cons x xs =>
        have hner : x :: xs ≠ [] := by simp
        have hlast' := hlast hner
        rw [List.getLast_cons hner]
        exact hlast'

/-- C1: for a fixed `(date, hour, event_type)` key with no pre-existing row,
a sequence of M `UpsertSummary` calls each carrying `total_events = 1` leaves
the stored row with `total_events = M`, while `unique_users`, `metadata` and
`updated_at` equal the values carried by the most recent call (the statement
quantifies over every call sequence, hence applies to every prefix of it,
i.e. to the state after each call). -/
theorem upsertSummary_accumulation (store₀ : List Summary) (d : Date) (hr : Nat)
    (et : String) (calls : List Summary) (hne : calls ≠ [])
    (hkeys : ∀ c ∈ calls, c.date = d ∧ c.hour = hr ∧ c.eventType = et ∧ c.totalEvents = 1)
    (h₀ : findRow store₀ d hr et = none) :
    ∃ r, findRow (calls.foldl upsertSummary store₀) d hr et = some r ∧
      r.totalEvents = calls.length ∧
      r.uniqueUsers = (calls.getLast hne).uniqueUsers ∧
      r.metadata = (calls.getLast hne).metadata ∧
      r.updatedAt = (calls.getLast hne).updatedAt := by
  cases calls with
  | nil => exact absurd rfl hne
  | cons c rest =>
    obtain ⟨hc1, hc2, hc3, hc4⟩ := hkeys c (List.mem_cons_self _ _)
    have hself := findRow_upsert_self store₀ c
    rw [hc1, hc2, hc3, h₀] at hself
    obtain ⟨r', hfind', htot, hnil, hlast⟩ :=
      upsert_fold_hit d hr et rest (upsertSummary store₀ c) c
        (fun x hx => (hkeys x (List.mem_cons_of_mem _ hx)))
        hself
    have htot2 : r'.totalEvents = c.totalEvents + rest.length := by
      simpa using htot
    refine ⟨r', by simpa using hfind', ?_, ?_⟩
    · rw [hc4] at htot2
      simp only [List.length_cons]
      push_cast at htot2 ⊢
      omega
    · cases rest with
      | nil =>
        have hr'c : r' = c := hnil rfl
        rw [List.getLast_singleton, hr'c]
        exact ⟨rfl, rfl, rfl⟩
      | cons x xs =>
        have hner : x :: xs ≠ [] := by simp
        have hlast' := hlast hner
        rw [List.getLast_cons hner]
        exact hlast'

/-- C2: for every list of summary rows, regrouping at day granularity gives,
for each `(day, event_type)` group, a `total_events` equal to the sum of the
constituent hourly rows' `total_events` and a `unique_users` equal to the
maximum (an element of the group that bounds all others, hence not the sum)
of the constituent hourly rows' `unique_users`. -/
theorem groupByGranularity_day_sum_max (summaries : List Summary) (s₀ : Summary)
    (hmem : s₀ ∈ summaries) (hwf : ∀ s ∈ summaries, WFDate s.date) :
    ∃ stat, lookupGroup (groupByGranularity summaries "day") (dayKeyOf s₀) = some stat ∧
      stat.totalEvents =
        ((summaries.filter fun s =>
          decide (s.date = s₀.date ∧ s.eventType = s₀.eventType)).map
            Summary.totalEvents).sum ∧
      stat.uniqueUsers ∈
        (summaries.filter fun s =>
          decide (s.date = s₀.date ∧ s.eventType = s₀.eventType)).map Summary.uniqueUsers ∧
      ∀ u ∈ (summaries.filter fun s =>
          decide (s.date = s₀.date ∧ s.eventType = s₀.eventType)).map Summary.uniqueUsers,
        u ≤ stat.uniqueUsers := by
  have hfilter : summaries.filter (fun s => decide (dayKeyOf s = dayKeyOf s₀)) =
      summaries.filter (fun s => decide (s.date = s₀.date ∧ s.eventType = s₀.eventType)) := by
    apply List.filter_congr
    intro s hs
    simp only [decide_eq_decide]
    exact dayKeyOf_eq_iff s s₀ (hwf s hs) (hwf s₀ hmem)
  rw [groupByGranularity_day_eq]
  have hlg := lookup_groupFold dayKeyOf Summary.date (fun _ => 0) summaries (dayKeyOf s₀)
  rw [hfilter] at hlg
  have hs₀mem : s₀ ∈ summaries.filter
      (fun s => decide (s.date = s₀.date ∧ s.eventType = s₀.eventType)) := by
    rw [List.mem_filter]
    exact ⟨hmem, by simp⟩
  cases hfl : summaries.filter
      (fun s => decide (s.date = s₀.date ∧ s.eventType = s₀.eventType)) with
  | nil =>
    rw [hfl] at hs₀mem
    simp at hs₀mem
  | cons q rest =>
    rw [hfl] at hlg
    refine ⟨_, hlg, ?_, ?_, ?_⟩
    · simp [List.sum_cons]
    · have hmm := intMaxList_mem q.uniqueUsers (rest.map Summary.uniqueUsers)
      simpa using hmm
    · intro u hu
      have hle := le_intMaxList q.uniqueUsers (rest.map Summary.uniqueUsers) u
        (by simpa using hu)
      simpa using hle

/-- C10: for every list of summary rows and every granularity string other
than "day" (including "hour" itself, the empty string and unrecognised
values), the regrouping performed by `GetEventStats` is identical to the
hourly regrouping: unrecognised granularities silently fall back to hourly
grouping. -/
theorem groupByGranularity_fallback (summaries : List Summary) (granularity : String)
    (hg : granularity ≠ "day") :
    groupByGranularity summaries granularity = groupByGranularity summaries "hour" := by
  unfold groupByGranularity
  apply foldl_ext
  intro grouped s
  by_cases hh : granularity = "hour"
  · rw [hh]
  · rw [if_neg hh, if_neg hg, if_pos rfl]

/-!
Event ingestion (`internal/event`): domain model (`model.go`), repository
(`repository.go`), service (`service.go`) and gRPC handler (`handler.go`).
-/

/-- Opaque 128-bit identifier (`github.com/google/uuid.UUID`); `uuidNil`
stands for `uuid.Nil`, the all-zero UUID. -/
abbrev UUID := Nat

def uuidNil : UUID := 0

/-- The `event.Event` Go struct. `Data` is the opaque serialized payload blob;
`CreatedAt` an abstract timestamp. -/
structure Event where
  id : UUID
  eventType : String
  userId : UUID
  sessionId : UUID
  productId : Option UUID
  data : String
  createdAt : Nat
deriving DecidableEq

/-- The sentinel errors of `internal/event/errors.go` (plus nothing else: the
repository wraps infrastructure failures, which this model does not produce). -/
inductive EventErr where
  | duplicateEvent
  | invalidEventType
  | invalidUserID
  | invalidSessionID
  | eventAlreadyProcessed
  | eventNotFound
deriving DecidableEq

/-- `Event.Validate`: empty event type, nil user id or nil session id are
rejected, in that order; everything else passes. -/
def Event.validate (e : Event) : Option EventErr :=
  if e.eventType = "" then some .invalidEventType
  else if e.userId = uuidNil then some .invalidUserID
  else if e.sessionId = uuidNil then some .invalidSessionID
  else none

/-- `repository.Create`: validate, then single-row insert into `events`; a
primary-key conflict (Postgres error 23505) is returned as
`ErrDuplicateEvent` and leaves the table unchanged. The table is modelled as
the list of its rows. -/
def repoCreate (store : List Event) (e : Event) : Except EventErr (List Event) :=
  match e.validate with
  | some err => .error err
  | none =>
    if store.any (fun r => r.id == e.id) then .error .duplicateEvent
    else .ok (store ++ [e])

/-- One iteration of the `CreateBatch` loop: a row failing validation is
skipped, and `ON CONFLICT (id) DO NOTHING` skips a row whose id is already
present in the table (including rows inserted earlier in the same batch). -/
def createBatchStep (st : List Event) (e : Event) : List Event :=
  match e.validate with
  | some _ => st
  | none => if st.any (fun r => r.id == e.id) then st else st ++ [e]

/-- `repository.CreateBatch`: one transaction over the whole batch; the model
commits unconditionally, as the code does absent infrastructure failure. -/
def createBatch (store : List Event) (events : List Event) : List Event :=
  events.foldl createBatchStep store

/-- `Service.TrackEvent`: validate; persist (a duplicate is logged and turned
into a plain success, returning early); then publish to Kafka keyed by the
user id — a publish failure is only logged, so the outcome is independent of
the publish result `pub`. -/
def trackEvent (pub : UUID → Bool) (store : List Event) (e : Event) :
    Except EventErr (List Event) :=
  match e.validate with
  | some err => .error err
  | none =>
    match repoCreate store e with
    | .error .duplicateEvent => .ok store
    | .error err => .error err
    | .ok store' =>
      let _pubOk := pub e.userId
      .ok store'

/-- The dynamic type of a Kafka message value (`any` in Go): in
`TrackEventBatch` the service stores the event-type string, while the failure
branch expects a whole `*Event`. -/
inductive MsgValue where
  | str (s : String)
  | ev (e : Event)
deriving DecidableEq

/-- Go map update `messages[key] = value`: replace in place or append a new
key. -/
def mapUpdate (msgs : List (UUID × MsgValue)) (k : UUID) (v : MsgValue) :
    List (UUID × MsgValue) :=
  match msgs with
  | [] => [(k, v)]
  | (k', v') :: rest => if k' = k then (k', v) :: rest else (k', v') :: mapUpdate rest k v

/-- The message map built by `TrackEventBatch`: for each event, in batch
order, `messages[userID] = event.EventType` — one entry per distinct user,
holding that user's last event type. -/
def buildMessages (events : List Event) : List (UUID × MsgValue) :=
  events.foldl (fun msgs e => mapUpdate msgs e.userId (.str e.eventType)) []

/-- Go map lookup on the message map. -/
def lookupMsg : List (UUID × MsgValue) → UUID → Option MsgValue
  | [], _ => none
  | (k', v) :: rest, k => if k' = k then some v else lookupMsg rest k

/-- The send loop of `TrackEventBatch`: each map entry is published once; on
failure, the code appends `ev.ID` only after the type assertion
`value.(*Event)` succeeds — but the map only ever holds event-type strings,
so the `.ev` branch is dead and nothing is collected. -/
def sendFailures (pub : UUID → Bool) : List (UUID × MsgValue) → List String
  | [] => []
  | (k, v) :: rest =>
    if pub k then sendFailures pub rest
    else
      match v with
      | .ev e => toString e.id :: sendFailures pub rest
      | .str _ => sendFailures pub rest

/-- `Service.TrackEventBatch`: an empty batch is an error; otherwise persist
the batch via `CreateBatch`, publish one message per distinct user id, and
return `(store, len(events) - len(failedIDs), failedIDs)`. -/
def trackEventBatch (pub : UUID → Bool) (store : List Event) (events : List Event) :
    Except String (List Event × Int × List String) :=
  if events.isEmpty then .error "no events provided"
  else
    let store' := createBatch store events
    let messages := buildMessages events
    let failedIDs := sendFailures pub messages
    .ok (store', (events.length : Int) - failedIDs.length, failedIDs)

/-!
gRPC handler (`internal/event/handler.go`).
-/

/-- The protobuf `EventType` enumeration. `unspecified` stands for
`EVENT_TYPE_UNSPECIFIED` and any other value outside the six named ones,
which the `default` arm of `eventTypeToString` maps to `"unknown"`. -/
inductive PbEventType where
  | unspecified
  | pageView
  | productView
  | addToCart
  | removeFromCart
  | purchase
  | search
deriving DecidableEq

/-- `Handler.eventTypeToString`. -/
def eventTypeToString : PbEventType → String
  | .pageView => "page_view"
  | .productView => "product_view"
  | .addToCart => "add_to_cart"
  | .removeFromCart => "remove_from_cart"
  | .purchase => "purchase"
  | .search => "search"
  | .unspecified => "unknown"

/-- The event-type strings of the fixed enumeration declared in `model.go`. -/
def knownEventTypes : List String :=
  ["page_view", "product_view", "add_to_cart", "remove_from_cart", "purchase", "search"]

/-- A protobuf `Event` message as the handler sees it. Identifier fields are
strings to be parsed as UUIDs; the metadata map is omitted
(`json.Marshal` of a `map[string]string` cannot fail). -/
structure ProtoEvent where
  eventId : String
  userId : String
  sessionId : String
  productId : String
  eventType : PbEventType
  timestamp : Nat
deriving DecidableEq

/-- Conversion failures of `Handler.protoToEvent`. -/
inductive ConvErr where
  | invalidUserID
  | invalidSessionID
  | badProductID
deriving DecidableEq

/-- `Handler.protoToEvent`, parameterised by the UUID parser (`uuid.Parse`,
returning `none` on malformed input) and by the fresh UUID (`uuid.New()`)
used when the caller-supplied event id does not parse. An empty product id
means absent; a non-empty one must parse. -/
def protoToEvent (parse : String → Option UUID) (fresh : UUID) (p : ProtoEvent) :
    Except ConvErr Event :=
  let eid := (parse p.eventId).getD fresh
  match parse p.userId with
  | none => .error .invalidUserID
  | some uid =>
    match parse p.sessionId with
    | none => .error .invalidSessionID
    | some sid =>
      let pidRes : Except ConvErr (Option UUID) :=
        if p.productId = "" then .ok none
        else
          match parse p.productId with
          | none => .error .badProductID
          | some pid => .ok (some pid)
      match pidRes with
      | .error err => .error err
      | .ok pid =>
        .ok { id := eid, eventType := eventTypeToString p.eventType, userId := uid,
              sessionId := sid, productId := pid, data := "", createdAt := p.timestamp }

/-- The gRPC status codes the handler produces. -/
inductive GrpcCode where
  | invalidArgument
  | internal
deriving DecidableEq

/-- `Handler.TrackEvent`: conversion failures become `InvalidArgument`;
service errors matching `ErrEventNotFound`, `ErrInvalidSessionID` or
`ErrInvalidUserID` become `InvalidArgument`, all others `Internal`; success
returns the canonical event id and the updated store. -/
def handlerTrackEvent (parse : String → Option UUID) (fresh : UUID) (pub : UUID → Bool)
    (store : List Event) (p : ProtoEvent) : Except GrpcCode (String × List Event) :=
  match protoToEvent parse fresh p with
  | .error _ => .error .invalidArgument
  | .ok e =>
    match trackEvent pub store e with
    | .error err =>
      if err = .eventNotFound ∨ err = .invalidSessionID ∨ err = .invalidUserID then
        .error .invalidArgument
      else .error .internal
    | .ok store' => .ok (toString e.id, store')

/-- `Handler.TrackEventBatch`: an empty request is `InvalidArgument`; events
that fail conversion are dropped; the survivors go to the service, whose
error (in particular "no events provided" when every event was dropped)
surfaces as `Internal`; otherwise the processed/failed split is returned.
`fresh` supplies the per-event `uuid.New()` values by batch position. -/
def handlerTrackEventBatch (parse : String → Option UUID) (fresh : Nat → UUID)
    (pub : UUID → Bool) (store : List Event) (reqEvents : List ProtoEvent) :
    Except GrpcCode (List Event × Int × List String) :=
  if reqEvents.isEmpty then .error .invalidArgument
  else
    let events := reqEvents.enum.filterMap
      (fun ie => (protoToEvent parse (fresh ie.1) ie.2).toOption)
    match trackEventBatch pub store events with
    | .error _ => .error .internal
    | .ok r => .ok r

/-!
Aggregation consumer (`internal/analytics/service.go`): the process-local
working set of distinct users and its eviction sweep.
-/

/-- The decoded Kafka payload (`analytics.EventData`). `CreatedAt` is
modelled by its UTC civil date (`CreatedAt.Truncate(24h)`) and hour-of-day
(`CreatedAt.Hour()`), the only projections the service uses. -/
structure EventData where
  id : String
  eventType : String
  userId : String
  sessionId : String
  productId : Option String
  date : Date
  hour : Nat

/-- The working-set key
`fmt.Sprintf("%s-%d-%s", date.Format("2006-01-02"), hour, eventType)`
(note the hour is rendered unpadded by `%d`). -/
def mkCacheKey (d : Date) (h : Nat) (et : String) : String :=
  String.mk (fmtList d ++ '-' :: ((Nat.repr h).data ++ '-' :: et.data))

def eventKey (e : EventData) : String := mkCacheKey e.date e.hour e.eventType

/-- Lookup in the working set `map[string]map[string]bool`; a per-key user
set is a duplicate-free list in insertion order. -/
def lookupCache : List (String × List String) → String → Option (List String)
  | [], _ => none
  | (k', us) :: rest, k => if k' = k then some us else lookupCache rest k

/-- Working-set update `s.uniqueUsers[key] = users`. -/
def cacheSet : List (String × List String) → String → List String →
    List (String × List String)
  | [], k, us => [(k, us)]
  | (k', us') :: rest, k, us =>
    if k' = k then (k', us) :: rest else (k', us') :: cacheSet rest k us

/-- The summary `Service.ProcessEvent` submits to `UpsertSummary`:
`NewSummary` zeroes the counters and stamps `updated_at` (the parameter
`upNow`); `IncrementEvents(1)` then sets `total_events = 1` and
`SetUniqueUsers` sets `unique_users` to the cardinality of the working set
for the key after inserting this event's user. -/
def processEventSummary (cache : List (String × List String)) (upNow : Nat)
    (e : EventData) : Summary :=
  let users := (lookupCache cache (eventKey e)).getD []
  let users' := if e.userId ∈ users then users else users ++ [e.userId]
  { date := e.date, hour := e.hour, eventType := e.eventType,
    totalEvents := 1, uniqueUsers := (users'.length : Int),
    metadata := "", updatedAt := upNow }

/-- `Service.ProcessEvent`: insert the user into the working set for the
event's key, then upsert the summary row carrying increment 1 and the set's
new cardinality. -/
def processEvent (cache : List (String × List String)) (store : List Summary)
    (upNow : Nat) (e : EventData) : List (String × List String) × List Summary :=
  let users := (lookupCache cache (eventKey e)).getD []
  let users' := if e.userId ∈ users then users else users ++ [e.userId]
  (cacheSet cache (eventKey e) users',
   upsertSummary store (processEventSummary cache upNow e))

/-- `Service.CleanupOldCache`: delete every working-set key that compares
(byte-wise) below `cutoff := time.Now().Add(-24h).Format("2006-01-02")`; the
model receives the civil date of 24 hours before the current time. -/
def cleanupOldCache (cache : List (String × List String)) (cutoff : Date) :
    List (String × List String) :=
  cache.filter (fun kv => !(strLt kv.1 (formatDate cutoff)))

/-- Comparing a working-set key against the 10-character cutoff date string
is decided entirely by the key's 10-character date portion. -/
theorem strLt_mkCacheKey (d c : Date) (h : Nat) (et : String) :
    strLt (mkCacheKey d h et) (formatDate c) = listLtb (fmtList d) (fmtList c) := by
  show listLtb (fmtList d ++ '-' :: ((Nat.repr h).data ++ '-' :: et.data)) (fmtList c) = _
  exact listLtb_append_left (fmtList d) (fmtList c) _
    (by rw [fmtList_length, fmtList_length])

/-- C9: one run of the eviction sweep removes exactly the working-set entries
whose key's date portion chronologically precedes the cutoff date (24 hours
before the current time) and retains every other entry; and an event arriving
for a key absent from the working set (such as one just evicted) re-creates
the distinct-user set, so the summary submitted for its first user carries
`unique_users = 1`. -/
theorem cleanupOldCache_spec (cache : List (String × List String)) (cutoff d : Date)
    (hwd : WFDate d) (hwc : WFDate cutoff) (h : Nat) (et : String) (us : List String) :
    ((mkCacheKey d h et, us) ∈ cleanupOldCache cache cutoff ↔
      ((mkCacheKey d h et, us) ∈ cache ∧ ¬dateLt d cutoff)) ∧
    (∀ (upNow : Nat) (e : EventData), lookupCache cache (eventKey e) = none →
      (processEventSummary cache upNow e).uniqueUsers = 1) := by
  constructor
  · unfold cleanupOldCache
    rw [List.mem_filter]
    have hkey := strLt_mkCacheKey d cutoff h et
    constructor
    · rintro ⟨hmem, hflt⟩
      refine ⟨hmem, ?_⟩
      intro hlt
      have := (fmtList_lt_iff d cutoff hwd hwc).mpr hlt
      rw [← hkey] at this
      simp only [this] at hflt
      cases hflt
    · rintro ⟨hmem, hnlt⟩
      refine ⟨hmem, ?_⟩
      have hfalse : listLtb (fmtList d) (fmtList cutoff) = false := by
        cases hb : listLtb (fmtList d) (fmtList cutoff)
        · rfl
        · exact absurd ((fmtList_lt_iff d cutoff hwd hwc).mp hb) hnlt
      have hst : strLt (mkCacheKey d h et) (formatDate cutoff) = false := by
        rw [hkey]; exact hfalse
      simp [hst]
  · intro upNow e hnone
    unfold processEventSummary
    rw [hnone]
    simp

/-- C3: for a valid event whose id is not yet stored, the first `TrackEvent`
persists it; the second call with the same identifier hits the primary-key
conflict, which is translated into a non-error success that leaves the store
unchanged — exactly one row for that identifier remains. -/
theorem trackEvent_duplicate_is_success (pub : UUID → Bool) (store : List Event)
    (e : Event) (hval : e.validate = none) (hnew : ∀ r ∈ store, r.id ≠ e.id) :
    trackEvent pub store e = .ok (store ++ [e]) ∧
    trackEvent pub (store ++ [e]) e = .ok (store ++ [e]) ∧
    (store ++ [e]).countP (fun r => r.id == e.id) = 1 := by
  have hany : store.any (fun r => r.id == e.id) = false := by
    rw [List.any_eq_false]
    intro r hr
    simpa using hnew r hr
  have hany2 : (store ++ [e]).any (fun r => r.id == e.id) = true := by
    rw [List.any_eq_true]
    exact ⟨e, List.mem_append_right _ (List.mem_cons_self _ _), by simp⟩
  refine ⟨?_, ?_, ?_⟩
  · unfold trackEvent repoCreate
    rw [hval, hany]
    rfl
  · unfold trackEvent repoCreate
    rw [hval, hany2]
    rfl
  · rw [List.countP_append]
    have h0 : store.countP (fun r => r.id == e.id) = 0 := by
      rw [List.countP_eq_zero]
      intro r hr
      simpa using hnew r hr
    rw [h0]
    simp [List.countP_cons]

theorem trackEvent_ok_of_valid (pub : UUID → Bool) (store : List Event) (e : Event)
    (hval : e.validate = none) : ∃ s', trackEvent pub store e = .ok s' := by
  have hdup : repoCreate store e = .error .duplicateEvent ∨
      ∃ s', repoCreate store e = .ok s' := by
    unfold repoCreate
    rw [hval]
    by_cases hany : store.any (fun r => r.id == e.id) <;> simp [hany]
  unfold trackEvent
  rw [hval]
  rcases hdup with hd | ⟨s', hs'⟩
  · rw [hd]
    exact ⟨store, rfl⟩
  · rw [hs']
    exact ⟨s', rfl⟩

/-- C4: for a valid event, `TrackEvent`'s outcome never depends on the
publish result — in particular, with a publisher that fails for the event's
user key the call still returns success. -/
theorem trackEvent_publish_best_effort (pub pub' : UUID → Bool) (store : List Event)
    (e : Event) (hval : e.validate = none) (_hpub : pub e.userId = false) :
    (∃ store', trackEvent pub store e = .ok store') ∧
    trackEvent pub store e = trackEvent pub' store e :=
  ⟨trackEvent_ok_of_valid pub store e hval, rfl⟩

theorem mapUpdate_values_str (msgs : List (UUID × MsgValue)) (k : UUID) (s : String)
    (hmsgs : ∀ kv ∈ msgs, ∃ t, kv.2 = MsgValue.str t) :
    ∀ kv ∈ mapUpdate msgs k (MsgValue.str s), ∃ t, kv.2 = MsgValue.str t := by
  induction msgs with
  | nil =>
    intro kv hkv
    simp only [mapUpdate, List.mem_singleton] at hkv
    exact ⟨s, by rw [hkv]⟩
  | cons p rest ih =>
    obtain ⟨k', v'⟩ := p
    intro kv hkv
    simp only [mapUpdate] at hkv
    by_cases hk : k' = k
    · rw [if_pos hk] at hkv
      rw [List.mem_cons] at hkv
      rcases hkv with hkv | hkv
      · exact ⟨s, by rw [hkv]⟩
      · exact hmsgs kv (List.mem_cons_of_mem _ hkv)
    · rw [if_neg hk] at hkv
      rw [List.mem_cons] at hkv
      rcases hkv with hkv | hkv
      · rw [hkv]
        exact hmsgs (k', v') (List.mem_cons_self _ _)
      · exact ih (fun q hq => hmsgs q (List.mem_cons_of_mem _ hq)) kv hkv

theorem buildMessages_values_str (events : List Event) :
    ∀ kv ∈ buildMessages events, ∃ t, kv.2 = MsgValue.str t := by
  unfold buildMessages
  suffices hgen : ∀ msgs, (∀ kv ∈ msgs, ∃ t, kv.2 = MsgValue.str t) →
      ∀ kv ∈ events.foldl (fun m e => mapUpdate m e.userId (.str e.eventType)) msgs,
        ∃ t, kv.2 = MsgValue.str t by
    exact hgen [] (by intro kv hkv; simp at hkv)
  induction events with
  | nil => intro msgs hmsgs kv hkv; exact hmsgs kv hkv
  | cons e rest ih =>
    intro msgs hmsgs kv hkv
    exact ih (mapUpdate msgs e.userId (.str e.eventType))
      (mapUpdate_values_str msgs e.userId e.eventType hmsgs) kv hkv

theorem sendFailures_all_str (pub : UUID → Bool) (msgs : List (UUID × MsgValue))
    (hmsgs : ∀ kv ∈ msgs, ∃ t, kv.2 = MsgValue.str t) :
    sendFailures pub msgs = [] := by
  induction msgs with
  | nil => rfl
  | cons p rest ih =>
    obtain ⟨k, v⟩ := p
    obtain ⟨t, ht⟩ := hmsgs (k, v) (List.mem_cons_self _ _)
    simp only at ht
    subst ht
    unfold sendFailures
    have hrest := ih (fun q hq => hmsgs q (List.mem_cons_of_mem _ hq))
    by_cases hp : pub k
    · rw [if_pos hp]; exact hrest
    · rw [if_neg hp]; exact hrest

/-- The concrete event used to exhibit the lost-failure bug of
`TrackEventBatch`. -/
def c5Event : Event :=
  { id := 1, eventType := "page_view", userId := 2, sessionId := 3,
    productId := none, data := "", createdAt := 0 }

/-- C5 (code bug): a batch of one valid event whose Kafka publish fails still
reports `processed_count = 1` with no failed identifiers, because the message
map holds event-type strings while the failure branch's type assertion
`value.(*Event)` expects an event — the collection of failed ids is dead
code. The second conjunct states the general fact: the failed-id list of the
publish loop is empty for every batch and every publish outcome. -/
theorem trackEventBatch_failures_lost :
    trackEventBatch (fun _ => false) [] [c5Event] = .ok ([c5Event], 1, []) ∧
    ∀ (pub : UUID → Bool) (events : List Event),
      sendFailures pub (buildMessages events) = [] := by
  constructor
  · rfl
  · intro pub events
    exact sendFailures_all_str pub (buildMessages events) (buildMessages_values_str events)

theorem eventTypeToString_ne_empty (t : PbEventType) : eventTypeToString t ≠ "" := by
  cases t <;> decide

/-- A concrete UUID parser: recognises "u" and "sess" only (standing for two
well-formed, non-nil UUID strings). -/
def parseC6 : String → Option UUID := fun s =>
  if s = "u" then some 2 else if s = "sess" then some 3 else none

/-- A request whose event type is the unspecified enum value (outside the
fixed enumeration) but whose identifiers are all valid. -/
def c6Proto : ProtoEvent :=
  { eventId := "", userId := "u", sessionId := "sess", productId := "",
    eventType := .unspecified, timestamp := 0 }

/-- C6 counterexample: an event whose type is not a member of the fixed
enumeration (the unspecified enum value, rendered as the string "unknown") is
accepted by `TrackEvent` rather than rejected with `InvalidArgument`, so
validation does not enforce membership in the enumeration. -/
theorem handlerTrackEvent_accepts_unknown_type :
    handlerTrackEvent parseC6 7 (fun _ => true) [] c6Proto =
      .ok ("7", [{ id := 7, eventType := "unknown", userId := 2, sessionId := 3,
                   productId := none, data := "", createdAt := 0 }]) ∧
    eventTypeToString c6Proto.eventType ∉ knownEventTypes := by
  exact ⟨rfl, by decide⟩

/-- C6 (amended): `TrackEvent` fails with `InvalidArgument` exactly when the
user id fails to parse or parses to the nil UUID, the session id fails to
parse or parses to the nil UUID, or a supplied (non-empty) product id fails
to parse. The event type never causes a rejection: every enum value maps to a
non-empty string — unrecognised values to "unknown" — and validation only
checks non-emptiness, not membership in the enumeration. -/
theorem protoToEvent_ok_elim (parse : String → Option UUID) (fresh : UUID)
    (p : ProtoEvent) (e : Event) (h : protoToEvent parse fresh p = .ok e) :
    parse p.userId = some e.userId ∧ parse p.sessionId = some e.sessionId ∧
    e.eventType = eventTypeToString p.eventType ∧
    (p.productId = "" ∨ ∃ pid, parse p.productId = some pid) := by
  cases hu : parse p.userId with
  | none => simp [protoToEvent, hu] at h
  | some uid =>
    cases hs : parse p.sessionId with
    | none => simp [protoToEvent, hu, hs] at h
    | some sid =>
      by_cases hp : p.productId = ""
      · simp [protoToEvent, hu, hs, hp] at h
        subst h
        exact ⟨rfl, rfl, rfl, Or.inl hp⟩
      · cases hpp : parse p.productId with
        | none => simp [protoToEvent, hu, hs, hp, hpp] at h
        | some pid =>
          simp [protoToEvent, hu, hs, hp, hpp] at h
          subst h
          exact ⟨rfl, rfl, rfl, Or.inr ⟨pid, rfl⟩⟩

theorem protoToEvent_error_elim (parse : String → Option UUID) (fresh : UUID)
    (p : ProtoEvent) (err : ConvErr) (h : protoToEvent parse fresh p = .error err) :
    parse p.userId = none ∨ parse p.sessionId = none ∨
    (p.productId ≠ "" ∧ parse p.productId = none) := by
  cases hu : parse p.userId with
  | none => exact Or.inl rfl
  | some uid =>
    cases hs : parse p.sessionId with
    | none => exact Or.inr (Or.inl rfl)
    | some sid =>
      by_cases hp : p.productId = ""
      · simp [protoToEvent, hu, hs, hp] at h
      · cases hpp : parse p.productId with
        | none => exact Or.inr (Or.inr ⟨hp, rfl⟩)
        | some pid => simp [protoToEvent, hu, hs, hp, hpp] at h

/-- C6 (amended): `TrackEvent` fails with `InvalidArgument` exactly when the
user id fails to parse or parses to the nil UUID, the session id fails to
parse or parses to the nil UUID, or a supplied (non-empty) product id fails
to parse. The event type never causes a rejection: every enum value maps to a
non-empty string — unrecognised values to "unknown" — and validation only
checks non-emptiness, not membership in the enumeration. -/
theorem handlerTrackEvent_invalidArgument_iff (parse : String → Option UUID)
    (fresh : UUID) (pub : UUID → Bool) (store : List Event) (p : ProtoEvent) :
    (handlerTrackEvent parse fresh pub store p = .error .invalidArgument ↔
      (parse p.userId = none ∨ parse p.userId = some uuidNil ∨
       parse p.sessionId = none ∨ parse p.sessionId = some uuidNil ∨
       (p.productId ≠ "" ∧ parse p.productId = none))) := by
  cases hconv : protoToEvent parse fresh p with
  | error err =>
    have hLHS : handlerTrackEvent parse fresh pub store p = .error .invalidArgument := by
      unfold handlerTrackEvent
      rw [hconv]
    rw [hLHS]
    refine ⟨fun _ => ?_, fun _ => rfl⟩
    rcases protoToEvent_error_elim parse fresh p err hconv with h | h | h
    · exact Or.inl h
    · exact Or.inr (Or.inr (Or.inl h))
    · exact Or.inr (Or.inr (Or.inr (Or.inr h)))
  | ok e =>
    obtain ⟨hu, hs, hty, hprod⟩ := protoToEvent_ok_elim parse fresh p e hconv
    have hne : e.eventType ≠ "" := by
      rw [hty]; exact eventTypeToString_ne_empty _
    have hstep : handlerTrackEvent parse fresh pub store p =
        (match trackEvent pub store e with
         | .error err =>
            if err = EventErr.eventNotFound ∨ err = EventErr.invalidSessionID ∨
                err = EventErr.invalidUserID then
              Except.error GrpcCode.invalidArgument
            else Except.error GrpcCode.internal
         | .ok store' => Except.ok (toString e.id, store')) := by
      unfold handlerTrackEvent
      rw [hconv]
    rw [hstep]
    have hRHS : (parse p.userId = none ∨ parse p.userId = some uuidNil ∨
        parse p.sessionId = none ∨ parse p.sessionId = some uuidNil ∨
        (p.productId ≠ "" ∧ parse p.productId = none)) ↔
        (e.userId = uuidNil ∨ e.sessionId = uuidNil) := by
      rw [hu, hs]
      rcases hprod with hp | ⟨pid, hpp⟩
      · simp [hp]
      · simp [hpp]
    rw [hRHS]
    by_cases huid : e.userId = uuidNil
    · have hval : e.validate = some .invalidUserID := by
        simp [Event.validate, hne, huid]
      have htrk : trackEvent pub store e = .error .invalidUserID := by
        unfold trackEvent
        rw [hval]
      rw [htrk]
      simp [huid]
    · by_cases hsid : e.sessionId = uuidNil
      · have hval : e.validate = some .invalidSessionID := by
          simp [Event.validate, hne, huid, hsid]
        have htrk : trackEvent pub store e = .error .invalidSessionID := by
          unfold trackEvent
          rw [hval]
        rw [htrk]
        simp [hsid]
      · have hval : e.validate = none := by
          simp [Event.validate, hne, huid, hsid]
        obtain ⟨s', hs'⟩ := trackEvent_ok_of_valid pub store e hval
        rw [hs']
        simp [huid, hsid]

/-- A proto event whose user id does not parse: it fails conversion and is
dropped from the batch. -/
def c7Bad : ProtoEvent :=
  { eventId := "", userId := "nope", sessionId := "nope", productId := "",
    eventType := .pageView, timestamp := 0 }

/-- C7 counterexample: a non-empty batch in which every event is invalid is
not answered with a processed/failed split — the handler drops all events,
hands the service an empty slice, and the service's "no events provided"
error surfaces as a hard `Internal` error. -/
theorem handlerTrackEventBatch_all_invalid_internal :
    handlerTrackEventBatch parseC6 (fun _ => 9) (fun _ => true) [] [c7Bad] =
      .error .internal := rfl

/-- C7 (amended): invalid events are dropped from the batch without failing
the call, and a processed/failed split is returned, provided at least one
event of the batch converts successfully; when every event is invalid the
service receives an empty slice and the whole call fails with `Internal`. -/
theorem handlerTrackEventBatch_split (parse : String → Option UUID) (fresh : Nat → UUID)
    (pub : UUID → Bool) (store : List Event) (reqEvents : List ProtoEvent)
    (hne : reqEvents ≠ []) :
    (reqEvents.enum.filterMap
        (fun ie => (protoToEvent parse (fresh ie.1) ie.2).toOption) = [] →
      handlerTrackEventBatch parse fresh pub store reqEvents = .error .internal) ∧
    (reqEvents.enum.filterMap
        (fun ie => (protoToEvent parse (fresh ie.1) ie.2).toOption) ≠ [] →
      ∃ store' n failed, handlerTrackEventBatch parse fresh pub store reqEvents =
        .ok (store', n, failed)) := by
  have hempty : reqEvents.isEmpty = false := by
    cases reqEvents with
    | nil => exact absurd rfl hne
    | cons a l => rfl
  constructor
  · intro hev
    unfold handlerTrackEventBatch
    simp only [hempty, Bool.false_eq_true, if_false]
    rw [hev]
    rfl
  · intro hev
    have hev2 : (reqEvents.enum.filterMap
        (fun ie => (protoToEvent parse (fresh ie.1) ie.2).toOption)).isEmpty = false := by
      cases hE : reqEvents.enum.filterMap
          (fun ie => (protoToEvent parse (fresh ie.1) ie.2).toOption) with
      | nil => exact absurd hE hev
      | cons a l => rfl
    unfold handlerTrackEventBatch trackEventBatch
    simp only [hempty, hev2, Bool.false_eq_true, if_false]
    exact ⟨_, _, _, rfl⟩

theorem mapUpdate_fst (msgs : List (UUID × MsgValue)) (k : UUID) (v : MsgValue) :
    (mapUpdate msgs k v).map Prod.fst =
      if k ∈ msgs.map Prod.fst then msgs.map Prod.fst else msgs.map Prod.fst ++ [k] := by
  induction msgs with
  | nil => simp [mapUpdate]
  | cons p rest ih =>
    obtain ⟨k', v'⟩ := p
    by_cases hk : k' = k
    · subst hk
      simp [mapUpdate]
    · simp only [mapUpdate, if_neg hk, List.map_cons]
      rw [ih]
      by_cases hmem : k ∈ rest.map Prod.fst
      · rw [if_pos hmem, if_pos (List.mem_cons_of_mem _ hmem)]
      · have hnot : k ∉ (k', v').fst :: rest.map Prod.fst := by
          rw [List.mem_cons]
          rintro (h | h)
          · exact hk h.symm
          · exact hmem h
        rw [if_neg hmem, if_neg hnot]
        simp

theorem buildMessages_keys_nodup (events : List Event) :
    ((buildMessages events).map Prod.fst).Nodup := by
  unfold buildMessages
  suffices hgen : ∀ msgs : List (UUID × MsgValue), (msgs.map Prod.fst).Nodup →
      ((events.foldl (fun m e => mapUpdate m e.userId (.str e.eventType)) msgs).map
        Prod.fst).Nodup by
    exact hgen [] (by simp)
  induction events with
  | nil => intro msgs h; exact h
  | cons e rest ih =>
    intro msgs h
    apply ih
    rw [mapUpdate_fst]
    by_cases hmem : e.userId ∈ msgs.map Prod.fst
    · rw [if_pos hmem]; exact h
    · rw [if_neg hmem]
      simp [List.nodup_append, h, hmem]

theorem lookupMsg_mapUpdate (msgs : List (UUID × MsgValue)) (k : UUID) (v : MsgValue)
    (u : UUID) :
    lookupMsg (mapUpdate msgs k v) u = if u = k then some v else lookupMsg msgs u := by
  induction msgs with
  | nil =>
    by_cases hu : u = k
    · subst hu
      simp [mapUpdate, lookupMsg]
    · have h2 : ¬k = u := fun h => hu h.symm
      simp [mapUpdate, lookupMsg, hu, h2]
  | cons p rest ih =>
    obtain ⟨k', v'⟩ := p
    by_cases hk' : k' = k
    · by_cases hu : u = k
      · simp [mapUpdate, lookupMsg, hk', hu]
      · have h2 : ¬k = u := fun h => hu h.symm
        simp [mapUpdate, lookupMsg, hk', hu, h2]
    · by_cases hu : u = k'
      · have h2 : ¬u = k := fun h => hk' (hu.symm.trans h)
        simp [mapUpdate, lookupMsg, hk', hu, h2]
      · have h2 : ¬k' = u := fun h => hu h.symm
        simp [mapUpdate, lookupMsg, hk', hu, h2, ih]

/-- The message map holds, for each user id occurring in the batch, exactly
the event-type string of that user's last event in batch order. -/
theorem lookupMsg_buildMessages (events : List Event) (u : UUID) :
    lookupMsg (buildMessages events) u =
      match ((events.filter (fun e => e.userId == u)).map Event.eventType).getLast? with
      | some et => some (MsgValue.str et)
      | none => none := by
  unfold buildMessages
  suffices hgen : ∀ msgs,
      lookupMsg (events.foldl (fun m e => mapUpdate m e.userId (.str e.eventType)) msgs) u =
        match ((events.filter (fun e => e.userId == u)).map Event.eventType).getLast? with
        | some et => some (MsgValue.str et)
        | none => lookupMsg msgs u by
    exact hgen []
  induction events using List.reverseRecOn with
  | nil => intro msgs; rfl
  | append_singleton l e ih =>
    intro msgs
    rw [List.foldl_append]
    simp only [List.foldl_cons, List.foldl_nil]
    rw [lookupMsg_mapUpdate]
    by_cases hu : u = e.userId
    · rw [if_pos hu]
      have hone : List.filter (fun e' => e'.userId == u) [e] = [e] := by
        simp [hu]
      rw [List.filter_append, hone, List.map_append]
      simp [List.getLast?_concat]
    · rw [if_neg hu]
      have hnone : List.filter (fun e' => e'.userId == u) [e] = [] := by
        simp only [List.filter_cons, List.filter_nil]
        have : (e.userId == u) = false := by
          simp only [beq_eq_false_iff_ne, ne_eq]
          exact fun h => hu h.symm
        rw [this]
        rfl
      rw [List.filter_append, hnone, List.append_nil]
      exact ih msgs

theorem createBatchStep_mono (st : List Event) (f : Event) (r : Event) (h : r ∈ st) :
    r ∈ createBatchStep st f := by
  unfold createBatchStep
  cases f.validate with
  | some err => exact h
  | none =>
    by_cases hany : st.any (fun q => q.id == f.id)
    · rw [if_pos hany]; exact h
    · rw [if_neg hany]; exact List.mem_append_left _ h

theorem createBatch_mem_mono (events : List Event) :
    ∀ (store : List Event) (r : Event), r ∈ store → r ∈ createBatch store events := by
  induction events with
  | nil => intro store r h; exact h
  | cons f rest ih =>
    intro store r h
    exact ih (createBatchStep store f) r (createBatchStep_mono store f r h)

/-- Every valid event of a batch leaves a row with its id in the table after
`CreateBatch` (either freshly inserted or already present on conflict). -/
theorem createBatch_id_present (events : List Event) :
    ∀ (store : List Event) (e : Event), e ∈ events → e.validate = none →
      ∃ r ∈ createBatch store events, r.id = e.id := by
  induction events with
  | nil => intro store e h; simp at h
  | cons f rest ih =>
    intro store e hmem hval
    rw [List.mem_cons] at hmem
    rcases hmem with hef | hmem
    · subst hef
      have hpres : ∃ r ∈ createBatchStep store e, r.id = e.id := by
        unfold createBatchStep
        rw [hval]
        by_cases hany : store.any (fun q => q.id == e.id)
        · rw [if_pos hany]
          obtain ⟨r, hr, hrid⟩ := List.any_eq_true.mp hany
          exact ⟨r, hr, by simpa using hrid⟩
        · rw [if_neg hany]
          exact ⟨e, List.mem_append_right _ (List.mem_cons_self _ _), rfl⟩
      obtain ⟨r, hr, hrid⟩ := hpres
      exact ⟨r, createBatch_mem_mono rest _ r hr, hrid⟩
    · exact ih (createBatchStep store f) e hmem hval

/-- C8: for every accepted batch, the message map has exactly one entry per
distinct user id of the batch (each sent once by the publish loop), the value
stored for a user is the event-type string of that user's last event in
batch order, every valid event of the batch is persisted regardless, and the
call returns the store produced by `CreateBatch`. -/
theorem trackEventBatch_collapses_messages (pub : UUID → Bool) (store : List Event)
    (events : List Event) (hne : events ≠ []) :
    ((buildMessages events).map Prod.fst).Nodup ∧
    (∀ u : UUID,
      (∃ e ∈ events, e.userId = u) ↔ ∃ v, lookupMsg (buildMessages events) u = some v) ∧
    (∀ (u : UUID) (v : MsgValue), lookupMsg (buildMessages events) u = some v →
      ∃ et, v = .str et ∧
        ((events.filter (fun e => e.userId == u)).map Event.eventType).getLast? = some et) ∧
    (∀ e ∈ events, e.validate = none → ∃ r ∈ createBatch store events, r.id = e.id) ∧
    (∃ n failed, trackEventBatch pub store events =
      .ok (createBatch store events, n, failed)) := by
  refine ⟨buildMessages_keys_nodup events, ?_, ?_, ?_, ?_⟩
  · intro u
    rw [lookupMsg_buildMessages]
    cases hL : ((events.filter (fun e => e.userId == u)).map Event.eventType).getLast? with
    | some et =>
      have hnonempty : events.filter (fun e => e.userId == u) ≠ [] := by
        intro hfl
        rw [hfl] at hL
        simp at hL
      obtain ⟨e, he⟩ := List.exists_mem_of_ne_nil _ hnonempty
      obtain ⟨hmem, hpred⟩ := List.mem_filter.mp he
      exact ⟨fun _ => ⟨.str et, rfl⟩, fun _ => ⟨e, hmem, by simpa using hpred⟩⟩
    | none =>
      have hfl : events.filter (fun e => e.userId == u) = [] := by
        have hmap := List.getLast?_eq_none_iff.mp hL
        simpa using hmap
      constructor
      · rintro ⟨e, hmem, hu⟩
        exfalso
        have : e ∈ events.filter (fun e' => e'.userId == u) :=
          List.mem_filter.mpr ⟨hmem, by simp [hu]⟩
        rw [hfl] at this
        simp at this
      · rintro ⟨v, hv⟩
        cases hv
  · intro u v hv
    rw [lookupMsg_buildMessages] at hv
    cases hL : ((events.filter (fun e => e.userId == u)).map Event.eventType).getLast? with
    | some et =>
      rw [hL] at hv
      exact ⟨et, (Option.some.inj hv).symm, rfl⟩
    | none =>
      rw [hL] at hv
      cases hv
  · intro e hmem hval
    exact createBatch_id_present events store e hmem hval
  · have hempty : events.isEmpty = false := by
      cases events with
      | nil => exact absurd rfl hne
      | cons a l => rfl
    unfold trackEventBatch
    simp only [hempty, Bool.false_eq_true, if_false]
    exact ⟨_, _, rfl⟩

/-! Concrete instances used by the witnesses. -/

def d1C : Date := ⟨2024, 1, 1⟩

def s1C : Summary := ⟨d1C, 9, "page_view", 1, 1, "", 100⟩

def s2C : Summary := ⟨d1C, 9, "page_view", 1, 2, "meta", 200⟩

def s3C : Summary := ⟨d1C, 10, "page_view", 2, 5, "", 0⟩

def s4C : Summary := ⟨d1C, 11, "page_view", 4, 3, "", 0⟩

def e1C : Event := ⟨10, "page_view", 2, 3, none, "", 0⟩

def e2C : Event := ⟨11, "purchase", 2, 3, none, "", 1⟩

def dOldC : Date := ⟨2023, 12, 30⟩

def cutoffC : Date := ⟨2023, 12, 31⟩

theorem upsertSummary_accumulation_witness :
    (([s1C, s2C] : List Summary) ≠ []) ∧
    (∀ c ∈ ([s1C, s2C] : List Summary),
      c.date = d1C ∧ c.hour = 9 ∧ c.eventType = "page_view" ∧ c.totalEvents = 1) ∧
    (findRow [] d1C 9 "page_view" = none) ∧
    ∃ r, findRow (([s1C, s2C] : List Summary).foldl upsertSummary []) d1C 9 "page_view" =
        some r ∧
      r.totalEvents = (([s1C, s2C] : List Summary).length : Int) ∧
      r.uniqueUsers = (([s1C, s2C] : List Summary).getLast (by decide)).uniqueUsers ∧
      r.metadata = (([s1C, s2C] : List Summary).getLast (by decide)).metadata ∧
      r.updatedAt = (([s1C, s2C] : List Summary).getLast (by decide)).updatedAt := by
  refine ⟨by decide, by decide, by decide, ?_⟩
  exact upsertSummary_accumulation [] d1C 9 "page_view" [s1C, s2C]
    (by decide) (by decide) (by decide)

theorem groupByGranularity_day_sum_max_witness :
    (s3C ∈ ([s3C, s4C] : List Summary)) ∧
    (∀ s ∈ ([s3C, s4C] : List Summary), WFDate s.date) ∧
    ∃ stat, lookupGroup (groupByGranularity [s3C, s4C] "day") (dayKeyOf s3C) = some stat ∧
      stat.totalEvents =
        ((([s3C, s4C] : List Summary).filter fun s =>
          decide (s.date = s3C.date ∧ s.eventType = s3C.eventType)).map
            Summary.totalEvents).sum ∧
      stat.uniqueUsers ∈
        (([s3C, s4C] : List Summary).filter fun s =>
          decide (s.date = s3C.date ∧ s.eventType = s3C.eventType)).map
            Summary.uniqueUsers ∧
      ∀ u ∈ (([s3C, s4C] : List Summary).filter fun s =>
          decide (s.date = s3C.date ∧ s.eventType = s3C.eventType)).map
            Summary.uniqueUsers,
        u ≤ stat.uniqueUsers := by
  refine ⟨by decide, by decide, ?_⟩
  exact groupByGranularity_day_sum_max [s3C, s4C] s3C (by decide) (by decide)

theorem trackEvent_duplicate_is_success_witness :
    e1C.validate = none ∧
    (∀ r ∈ ([] : List Event), r.id ≠ e1C.id) ∧
    (trackEvent (fun _ => true) [] e1C = .ok ([] ++ [e1C]) ∧
     trackEvent (fun _ => true) ([] ++ [e1C]) e1C = .ok ([] ++ [e1C]) ∧
     (([] : List Event) ++ [e1C]).countP (fun r => r.id == e1C.id) = 1) := by
  refine ⟨by decide, by decide, ?_⟩
  exact trackEvent_duplicate_is_success (fun _ => true) [] e1C (by decide) (by decide)

theorem trackEvent_publish_best_effort_witness :
    e1C.validate = none ∧
    ((fun _ : UUID => false) e1C.userId = false) ∧
    ((∃ store', trackEvent (fun _ => false) [] e1C = .ok store') ∧
      trackEvent (fun _ => false) [] e1C = trackEvent (fun _ => true) [] e1C) := by
  refine ⟨by decide, rfl, ?_⟩
  exact trackEvent_publish_best_effort (fun _ => false) (fun _ => true) [] e1C
    (by decide) rfl

theorem handlerTrackEvent_invalidArgument_iff_witness :
    (handlerTrackEvent parseC6 7 (fun _ => true) [] c6Proto = .error .invalidArgument ↔
      (parseC6 c6Proto.userId = none ∨ parseC6 c6Proto.userId = some uuidNil ∨
       parseC6 c6Proto.sessionId = none ∨ parseC6 c6Proto.sessionId = some uuidNil ∨
       (c6Proto.productId ≠ "" ∧ parseC6 c6Proto.productId = none))) :=
  handlerTrackEvent_invalidArgument_iff parseC6 7 (fun _ => true) [] c6Proto

theorem handlerTrackEventBatch_split_witness :
    (([c6Proto] : List ProtoEvent) ≠ []) ∧
    (([c6Proto] : List ProtoEvent).enum.filterMap
      (fun ie => (protoToEvent parseC6 ((fun _ => 9) ie.1) ie.2).toOption) ≠ []) ∧
    ∃ store' n failed,
      handlerTrackEventBatch parseC6 (fun _ => 9) (fun _ => true) [] [c6Proto] =
        .ok (store', n, failed) := by
  refine ⟨by decide, by decide, ?_⟩
  exact (handlerTrackEventBatch_split parseC6 (fun _ => 9) (fun _ => true) [] [c6Proto]
    (by decide)).2 (by decide)

theorem trackEventBatch_collapses_messages_witness :
    (([e1C, e2C] : List Event) ≠ []) ∧
    (((buildMessages [e1C, e2C]).map Prod.fst).Nodup ∧
     (∀ u : UUID, (∃ e ∈ ([e1C, e2C] : List Event), e.userId = u) ↔
        ∃ v, lookupMsg (buildMessages [e1C, e2C]) u = some v) ∧
     (∀ (u : UUID) (v : MsgValue), lookupMsg (buildMessages [e1C, e2C]) u = some v →
       ∃ et, v = .str et ∧
         ((([e1C, e2C] : List Event).filter (fun e => e.userId == u)).map
           Event.eventType).getLast? = some et) ∧
     (∀ e ∈ ([e1C, e2C] : List Event), e.validate = none →
       ∃ r ∈ createBatch [] [e1C, e2C], r.id = e.id) ∧
     (∃ n failed, trackEventBatch (fun _ => true) [] [e1C, e2C] =
       .ok (createBatch [] [e1C, e2C], n, failed))) := by
  refine ⟨by decide, ?_⟩
  exact trackEventBatch_collapses_messages (fun _ => true) [] [e1C, e2C] (by decide)

theorem cleanupOldCache_spec_witness :
    WFDate dOldC ∧ WFDate cutoffC ∧
    ((((mkCacheKey dOldC 9 "page_view", ["u1"]) ∈
        cleanupOldCache [(mkCacheKey dOldC 9 "page_view", ["u1"])] cutoffC) ↔
      ((mkCacheKey dOldC 9 "page_view", ["u1"]) ∈
        ([(mkCacheKey dOldC 9 "page_view", ["u1"])] :
          List (String × List String)) ∧ ¬dateLt dOldC cutoffC)) ∧
     (∀ (upNow : Nat) (e : EventData),
       lookupCache [(mkCacheKey dOldC 9 "page_view", ["u1"])] (eventKey e) = none →
       (processEventSummary [(mkCacheKey dOldC 9 "page_view", ["u1"])] upNow e).uniqueUsers =
         1)) := by
  refine ⟨by decide, by decide, ?_⟩
  exact cleanupOldCache_spec [(mkCacheKey dOldC 9 "page_view", ["u1"])] cutoffC dOldC
    (by decide) (by decide) 9 "page_view" ["u1"]

theorem groupByGranularity_fallback_witness :
    ("" : String) ≠ "day" ∧
    groupByGranularity [s3C] "" = groupByGranularity [s3C] "hour" := by
  refine ⟨by decide, ?_⟩
  exact groupByGranularity_fallback [s3C] "" (by decide)

end RealtimeAnalytics
